import Mathlib

/-!
Shallow embedding of the `obfstr` crate (src/src/lib.rs) in Lean 4, together
with theorems settling the specification claims about it.

Machine integers are modelled as `Nat` with explicit `% 2^w` wherever the Rust
code wraps; strings are modelled as lists of their UTF-8 bytes (`List Nat`,
each element a byte value); fallible or diverging code paths are modelled with
`Option`.
-/

namespace Obfstr

/-- Embeds `splitmix` (src/src/lib.rs lines 59-65): wrapping add of the
64-bit golden-ratio constant, two xorshift-multiply rounds, final xorshift. -/
def splitmix (seed : Nat) : Nat :=
  let next := (seed + 0x9e3779b97f4a7c15) % 2^64
  let z := next
  let z := ((z ^^^ (z >>> 30)) * 0xbf58476d1ce4e5b9) % 2^64
  let z := ((z ^^^ (z >>> 27)) * 0x94d049bb133111eb) % 2^64
  z ^^^ (z >>> 31)

/-- Loop body of `hash` (src/src/lib.rs lines 71-80): wrapping
`result = result * 33 + byte` over the UTF-8 bytes. -/
def hashLoop : Nat → List Nat → Nat
  | result, [] => result
  | result, b :: rest => hashLoop ((result * 33 + b) % 2^32) rest

/-- Embeds `hash` (src/src/lib.rs lines 71-80): DJB2-style hash with initial
accumulator 3581 over the string's UTF-8 bytes. -/
def hash (s : List Nat) : Nat := hashLoop 3581 s

/-- Modelled from the spec: the build-time default for the `OBFSTR_SEED`
environment variable is supplied by build machinery that is not under src/
(lib.rs line 106 only reads `env!("OBFSTR_SEED")`); the spec says a fixed
default string is used when the external value is absent, without naming it. -/
def defaultSeedString : List Nat := []

/-- Modelled from the spec: the externally configured seed string — the value
of `OBFSTR_SEED` when supplied, else the fixed default. -/
def seedString (cfg : Option (List Nat)) : List Nat :=
  match cfg with
  | some s => s
  | none => defaultSeedString

/-- Embeds `SEED` (src/src/lib.rs line 106):
`splitmix(hash(env!("OBFSTR_SEED")) as u64)`, parametrised by the external
configuration value. -/
def SEED (cfg : Option (List Nat)) : Nat := splitmix (hash (seedString cfg))

/-- Embeds `entropy` (src/src/lib.rs lines 98-100):
`splitmix(splitmix(splitmix(SEED ^ hash(file) as u64) ^ line as u64) ^ column as u64)`. -/
def entropy (cfg : Option (List Nat)) (file : List Nat) (line column : Nat) : Nat :=
  splitmix (splitmix (splitmix (SEED cfg ^^^ hash file) ^^^ line) ^^^ column)

/-- UTF-8 bytes of the string "Hello World". -/
def helloWorldBytes : List Nat := [72, 101, 108, 108, 111, 32, 87, 111, 114, 108, 100]

/-- Modelled from the spec: the keystream generator's running 64-bit state,
advanced once per position by the bit mixer (`bytes::keystream` and
`words::keystream` live in src/bytes.rs and src/words.rs, which are not under
src/; lib.rs only calls them). Position sub-keys are the successive mixed
states truncated to the element width `2^w`. -/
def keystreamAux (width : Nat) : Nat → Nat → List Nat
  | _, 0 => []
  | state, n + 1 =>
    let next := splitmix state
    next % 2^width :: keystreamAux width next n

namespace bytes

/-- Modelled from the spec: `bytes::keystream` — expand a 32-bit key into `n`
byte-width sub-keys (the running state is seeded from the key and advanced by
the bit mixer once per position, each state truncated to 8 bits). -/
def keystream (key n : Nat) : List Nat := keystreamAux 8 (key % 2^32) n

/-- Modelled from the spec: `bytes::obfuscate` — element-wise XOR of the
plaintext bytes against the keystream. -/
def obfuscate (plain keys : List Nat) : List Nat := List.zipWith (· ^^^ ·) plain keys

/-- Modelled from the spec: `bytes::deobfuscate` — identical element-wise XOR
applied to the cipher bytes. -/
def deobfuscate (cipher keys : List Nat) : List Nat := List.zipWith (· ^^^ ·) cipher keys

/-- Modelled from the spec: `bytes::equals` — false if the candidate's length
differs from the cipher's, otherwise compare `candidate[i] XOR keystream[i]`
against `cipher[i]` for all `i`. -/
def equals : List Nat → List Nat → List Nat → Bool
  | [], _, [] => true
  | c :: cipher, k :: keys, d :: cand => (d ^^^ k == c) && equals cipher keys cand
  | _, _, _ => false

end bytes

namespace words

/-- Modelled from the spec: `words::keystream` — as `bytes::keystream`, with
each state truncated to 16 bits. -/
def keystream (key n : Nat) : List Nat := keystreamAux 16 (key % 2^32) n

/-- Modelled from the spec: `words::obfuscate` — element-wise XOR of the UTF-16
code units against the keystream. -/
def obfuscate (plain keys : List Nat) : List Nat := List.zipWith (· ^^^ ·) plain keys

/-- Modelled from the spec: `words::deobfuscate` — identical element-wise XOR
applied to the cipher units. -/
def deobfuscate (cipher keys : List Nat) : List Nat := List.zipWith (· ^^^ ·) cipher keys

end words

/-- Embeds `ObfString` (src/src/lib.rs lines 208-211): the 32-bit key together
with the obfuscated payload. -/
structure ObfString where
  key : Nat
  data : List Nat

/-- Embeds `ObfString::<[u8; LEN]>::obfuscate` (src/src/lib.rs lines 237-241):
XOR the string's bytes against `bytes::keystream(key)`; `LEN` is the byte
length of the string at every macro call site. -/
def ObfString.obfuscate (key : Nat) (s : List Nat) : ObfString :=
  let keys := bytes.keystream key s.length
  let data := bytes.obfuscate s keys
  { key := key, data := data }

/-- Embeds `ObfString::<[u8; LEN]>::deobfuscate` (src/src/lib.rs lines
244-248): regenerate the keystream from the stored key and XOR it against the
stored payload. -/
def ObfString.deobfuscate (o : ObfString) : List Nat :=
  let keys := bytes.keystream o.key o.data.length
  bytes.deobfuscate o.data keys

/-- Embeds `PartialEq<&str> for ObfString<[u8; LEN]>` (src/src/lib.rs lines
250-256): regenerate the keystream and compare via `bytes::equals`. -/
def ObfString.eqStr (o : ObfString) (other : List Nat) : Bool :=
  let keys := bytes.keystream o.key o.data.length
  bytes.equals o.data keys other

/-- Shared emission step of `wide` (src/src/lib.rs lines 188-196): a decoded
scalar below 0x10000 is stored as one code unit (`chr as u16`), anything else
as the surrogate pair `0xD800 + (chr - 0x10000) / 0x400`,
`0xDC00 + (chr - 0x10000) % 0x400`, each cast to `u16`. -/
def emit (chr : Nat) : List Nat :=
  if chr ≥ 0x10000 then
    [(0xD800 + (chr - 0x10000) / 0x400) % 2^16, (0xDC00 + (chr - 0x10000) % 0x400) % 2^16]
  else
    [chr % 2^16]

/-- One iteration of the decode dispatch shared verbatim by `wide_len`
(src/src/lib.rs lines 133-154) and `wide` (lines 166-187): branch on the
leading byte's high bits, read the continuation bytes, and return the decoded
scalar `chr` together with the number of continuation bytes consumed (the
source advances `i` by 1 + that count). `none` models the panicking /
diverging paths: reading a continuation byte past the end of the input
(out-of-bounds index in const evaluation) and the `loop { }` taken on a
leading byte matching none of the four patterns. -/
def decodeStep (b0 : Nat) (rest : List Nat) : Option (Nat × Nat) :=
  if b0 &&& 0x80 = 0x00 then
    some (b0, 0)
  else if b0 &&& 0xe0 = 0xc0 then
    match rest with
    | b1 :: _ => some ((((b0 &&& 0x1f) <<< 6) ||| (b1 &&& 0x3f)), 1)
    | [] => none
  else if b0 &&& 0xf0 = 0xe0 then
    match rest with
    | b1 :: b2 :: _ =>
      some (((((b0 &&& 0x0f) <<< 12) ||| ((b1 &&& 0x3f) <<< 6)) ||| (b2 &&& 0x3f)), 2)
    | _ => none
  else if b0 &&& 0xf8 = 0xf0 then
    match rest with
    | b1 :: b2 :: b3 :: _ =>
      some ((((((b0 &&& 0x07) <<< 18) ||| ((b1 &&& 0x3f) <<< 12)) |||
        ((b2 &&& 0x3f) <<< 6)) ||| (b3 &&& 0x3f)), 3)
    | _ => none
  else none

/-- Embeds `wide` (src/src/lib.rs lines 161-199) as a function from the UTF-8
byte list to the emitted UTF-16 code units: decode one scalar per loop
iteration via `decodeStep`, emit its code units, continue past the consumed
bytes. -/
def wide : List Nat → Option (List Nat)
  | [] => some []
  | b0 :: rest =>
    match decodeStep b0 rest with
    | some (chr, k) => (wide (rest.drop k)).map (fun us => emit chr ++ us)
    | none => none
  termination_by s => s.length
  decreasing_by simp [List.length_drop]; omega

/-- Embeds `wide_len` (src/src/lib.rs lines 129-158): the same decode loop as
`wide`, accumulating `2` per scalar at or above 0x10000 and `1` otherwise. -/
def wide_len : List Nat → Option Nat
  | [] => some 0
  | b0 :: rest =>
    match decodeStep b0 rest with
    | some (chr, k) =>
      (wide_len (rest.drop k)).map (fun n => (if chr ≥ 0x10000 then 2 else 1) + n)
    | none => none
  termination_by s => s.length
  decreasing_by simp [List.length_drop]; omega

/-- A Unicode scalar value: below 0x110000 and not a surrogate. -/
def ValidScalar (c : Nat) : Prop := c < 0x110000 ∧ ¬(0xD800 ≤ c ∧ c < 0xE000)

/-- Standard UTF-8 encoding of one Unicode scalar value, written with division
and remainder; used to state what a valid UTF-8 input looks like. -/
def utf8EncodeChar (c : Nat) : List Nat :=
  if c < 0x80 then [c]
  else if c < 0x800 then [0xC0 + c / 64, 0x80 + c % 64]
  else if c < 0x10000 then [0xE0 + c / 4096, 0x80 + c / 64 % 64, 0x80 + c % 64]
  else [0xF0 + c / 262144, 0x80 + c / 4096 % 64, 0x80 + c / 64 % 64, 0x80 + c % 64]

/-- UTF-8 encoding of a sequence of Unicode scalar values. -/
def utf8Encode (cs : List Nat) : List Nat :=
  cs.foldr (fun c acc => utf8EncodeChar c ++ acc) []

/-- The UTF-16 code units of one scalar as the spec describes them: one unit
below 0x10000, otherwise `high = 0xD800 + (scalar - 0x10000) / 0x400` and
`low = 0xDC00 + (scalar - 0x10000) % 0x400`. -/
def utf16Units (c : Nat) : List Nat :=
  if c < 0x10000 then [c]
  else [0xD800 + (c - 0x10000) / 0x400, 0xDC00 + (c - 0x10000) % 0x400]

/-- The UTF-16 code units of a sequence of scalars. -/
def utf16Str (cs : List Nat) : List Nat :=
  cs.foldr (fun c acc => utf16Units c ++ acc) []

/-- UTF-8 bytes of the string "Wide\0". -/
def wideStrBytes : List Nat := [87, 105, 100, 101, 0]

/-- Modelled from the spec: `char::decode_utf16` from the Rust standard
library, as used by `fmt::Debug for ObfBuffer<[u16; LEN]>` (src/src/lib.rs
lines 328-337). Each item is `some` decoded scalar, or `none` for an unpaired
or invalid surrogate; after an unpaired high surrogate the following unit is
retained and decoding continues with it; the step function decodes one item
and reports how many extra units it consumed. -/
def decodeUtf16Step : Nat → List Nat → Option Nat × Nat
  | u, [] => if u < 0xD800 ∨ 0xE000 ≤ u then (some u, 0) else (none, 0)
  | u, u2 :: _ =>
    if u < 0xD800 ∨ 0xE000 ≤ u then (some u, 0)
    else if u < 0xDC00 then
      if 0xDC00 ≤ u2 ∧ u2 < 0xE000 then
        (some (0x10000 + (u - 0xD800) * 0x400 + (u2 - 0xDC00)), 1)
      else (none, 0)
    else (none, 0)

/-- The decoded items: each is `some` scalar, or `none` for an unpaired or
invalid surrogate, decoding one item per `decodeUtf16Step` and continuing
past the units it consumed. -/
def decodeUtf16 : List Nat → List (Option Nat)
  | [] => []
  | u :: rest =>
    (decodeUtf16Step u rest).1 :: decodeUtf16 (rest.drop (decodeUtf16Step u rest).2)
  termination_by l => l.length
  decreasing_by simp [List.length_drop]; omega

/-- Embeds `fmt::Debug for ObfBuffer<[u16; LEN]>` (src/src/lib.rs lines
328-337) as the sequence of scalars written between the quotes: each decoded
scalar, with the Unicode replacement character 0xFFFD substituted for every
unpaired or invalid surrogate (`unwrap_or(char::REPLACEMENT_CHARACTER)`). -/
def debugRender (units : List Nat) : List Nat :=
  (decodeUtf16 units).map (fun o => o.getD 0xFFFD)

instance (c : Nat) : Decidable (ValidScalar c) := by
  unfold ValidScalar; infer_instance

/-! Helper lemmas. -/

theorem hashLoop_eq_foldl (s : List Nat) : ∀ a : Nat,
    hashLoop a s = s.foldl (fun acc b => (acc * 33 + b) % 2^32) a := by
  induction s with
  | nil => intro a; rfl
  | cons b rest ih => intro a; simpa [hashLoop] using ih ((a * 33 + b) % 2^32)

theorem xor_right_cancel_iff {k a d : Nat} : d ^^^ k = a ^^^ k ↔ d = a := by
  constructor
  · intro h
    have h2 := congrArg (· ^^^ k) h
    simpa [Nat.xor_cancel_right] using h2
  · intro h; rw [h]

/-! C3, C4, C8, C10. -/

/-- C3: for every configuration, file path, line and column,
`entropy(file, line, column)` equals three chained applications of `splitmix`
folding in the seed xor the file hash, then the line, then the column, where
`splitmix` is exactly the wrapping add of 0x9e3779b97f4a7c15 followed by the
two xorshift-multiply rounds and the final `z ^ (z >> 31)` on 64-bit values. -/
theorem entropy_splitmix_chain :
    (∀ cfg file line column, entropy cfg file line column =
      splitmix (splitmix (splitmix (SEED cfg ^^^ hash file) ^^^ line) ^^^ column)) ∧
    (∀ x, splitmix x =
      ((((x + 0x9e3779b97f4a7c15) % 2^64 ^^^ (((x + 0x9e3779b97f4a7c15) % 2^64) >>> 30)) *
          0xbf58476d1ce4e5b9 % 2^64 ^^^
        ((((x + 0x9e3779b97f4a7c15) % 2^64 ^^^ (((x + 0x9e3779b97f4a7c15) % 2^64) >>> 30)) *
          0xbf58476d1ce4e5b9 % 2^64) >>> 27)) * 0x94d049bb133111eb % 2^64) ^^^
      (((((x + 0x9e3779b97f4a7c15) % 2^64 ^^^ (((x + 0x9e3779b97f4a7c15) % 2^64) >>> 30)) *
          0xbf58476d1ce4e5b9 % 2^64 ^^^
        ((((x + 0x9e3779b97f4a7c15) % 2^64 ^^^ (((x + 0x9e3779b97f4a7c15) % 2^64) >>> 30)) *
          0xbf58476d1ce4e5b9 % 2^64) >>> 27)) * 0x94d049bb133111eb % 2^64) >>> 31)) :=
  ⟨fun _ _ _ _ => rfl, fun _ => rfl⟩

/-- C4: `hash` is the DJB2 variant with accumulator initialised to 3581 and
wrapping 32-bit step `acc = acc * 33 + byte` over the UTF-8 bytes, and
`hash("Hello World") = 1481604729`. -/
theorem hash_djb2 :
    (∀ s : List Nat, hash s = s.foldl (fun acc b => (acc * 33 + b) % 2^32) 3581) ∧
    hash helloWorldBytes = 1481604729 :=
  ⟨fun s => hashLoop_eq_foldl s 3581, by decide⟩

/-- C8: the process-wide seed is `splitmix` of the 32-bit hash of the
externally configured string (zero-extended to 64 bits), and when the external
string is absent the fixed default string is hashed instead. -/
theorem seed_derivation :
    (∀ s, SEED (some s) = splitmix (hash s)) ∧
    SEED none = splitmix (hash defaultSeedString) :=
  ⟨fun _ => rfl, rfl⟩

/-- C10: call-site entropy depends on the file path only through its 32-bit
hash — any two file paths with equal hashes give equal entropy at every line
and column, for every configuration. -/
theorem entropy_hash_only (cfg : Option (List Nat)) (f1 f2 : List Nat)
    (line column : Nat) (h : hash f1 = hash f2) :
    entropy cfg f1 line column = entropy cfg f2 line column := by
  unfold entropy
  rw [h]

/-- Witness for C10: the distinct byte strings `[0, 33]` and `[1, 0]` collide
under `hash`, and entropy agrees on them. -/
theorem entropy_hash_only_witness :
    hash [0, 33] = hash [1, 0] ∧ ([0, 33] : List Nat) ≠ [1, 0] ∧
    entropy none [0, 33] 3 4 = entropy none [1, 0] 3 4 :=
  ⟨by decide, by decide, entropy_hash_only none [0, 33] [1, 0] 3 4 (by decide)⟩

/-! Helpers for the keystream and XOR transform claims. -/

theorem zipWith_xor_cancel : ∀ p k : List Nat, p.length = k.length →
    List.zipWith (· ^^^ ·) (List.zipWith (· ^^^ ·) p k) k = p := by
  intro p
  induction p with
  | nil => intro k _; simp
  | cons a p' ih =>
    intro k h
    cases k with
    | nil => simp at h
    | cons b k' =>
      have h' : p'.length = k'.length := by simpa using h
      simp [List.zipWith, Nat.xor_cancel_right, ih k' h']

theorem keystreamAux_length (w : Nat) : ∀ n st, (keystreamAux w st n).length = n := by
  intro n
  induction n with
  | zero => intro st; rfl
  | succ m ih => intro st; simp [keystreamAux, ih]

theorem keystreamAux_take (w : Nat) : ∀ m n st, m ≤ n →
    (keystreamAux w st n).take m = keystreamAux w st m := by
  intro m
  induction m with
  | zero => intro n st _; simp [keystreamAux]
  | succ m' ih =>
    intro n st h
    cases n with
    | zero => omega
    | succ n' =>
      simp [keystreamAux, List.take, ih n' (splitmix st) (by omega)]

theorem equals_nil_nil (ks : List Nat) : bytes.equals [] ks [] = true := by
  cases ks <;> rfl

theorem equals_nil_cons (ks : List Nat) (d : Nat) (cand : List Nat) :
    bytes.equals [] ks (d :: cand) = false := by
  cases ks <;> rfl

theorem equals_cons_nil (c : Nat) (cipher : List Nat) (k : Nat) (keys : List Nat) :
    bytes.equals (c :: cipher) (k :: keys) [] = false := rfl

theorem equals_cons (c : Nat) (cipher : List Nat) (k : Nat) (keys : List Nat)
    (d : Nat) (cand : List Nat) :
    bytes.equals (c :: cipher) (k :: keys) (d :: cand) =
      ((d ^^^ k == c) && bytes.equals cipher keys cand) := rfl

theorem equals_obfuscate_iff : ∀ s ks cand : List Nat, s.length = ks.length →
    (bytes.equals (bytes.obfuscate s ks) ks cand = true ↔ cand = s) := by
  intro s
  induction s with
  | nil =>
    intro ks cand _
    cases cand with
    | nil => simp [bytes.obfuscate, equals_nil_nil]
    | cons d ds => simp [bytes.obfuscate, equals_nil_cons]
  | cons a s' ih =>
    intro ks cand h
    cases ks with
    | nil => simp at h
    | cons k ks' =>
      have h' : s'.length = ks'.length := by simpa using h
      cases cand with
      | nil => simp [bytes.obfuscate, List.zipWith, equals_cons_nil]
      | cons d ds =>
        have := ih ks' ds h'
        simp only [bytes.obfuscate, List.zipWith] at this ⊢
        rw [equals_cons]
        simp only [Bool.and_eq_true, beq_iff_eq, this, List.cons.injEq]
        exact and_congr_left fun _ => xor_right_cancel_iff

/-! C1, C2, C5. -/

/-- C1: XOR deobfuscation inverts obfuscation — for every payload and
keystream of equal length (byte or word width) deobfuscating the obfuscated
payload with the same keystream recovers it, and in particular
`ObfString::<[u8; LEN]>::obfuscate(k, s)` followed by `deobfuscate` recovers
exactly the bytes of `s` for every 32-bit key and string. -/
theorem round_trip :
    (∀ p k : List Nat, p.length = k.length →
      bytes.deobfuscate (bytes.obfuscate p k) k = p) ∧
    (∀ p k : List Nat, p.length = k.length →
      words.deobfuscate (words.obfuscate p k) k = p) ∧
    (∀ (key : Nat) (s : List Nat), (ObfString.obfuscate key s).deobfuscate = s) := by
  refine ⟨fun p k h => zipWith_xor_cancel p k h, fun p k h => zipWith_xor_cancel p k h,
    fun key s => ?_⟩
  show bytes.deobfuscate _ (bytes.keystream _ _) = s
  have hlen : (bytes.obfuscate s (bytes.keystream key s.length)).length = s.length := by
    simp [bytes.obfuscate, bytes.keystream, keystreamAux_length]
  have hks : (bytes.keystream key s.length).length = s.length := by
    simp [bytes.keystream, keystreamAux_length]
  simp only [ObfString.obfuscate, ObfString.deobfuscate, hlen]
  exact zipWith_xor_cancel s _ hks.symm

/-- Witness for C1: a concrete round trip through the byte transform and
through `ObfString`. -/
theorem round_trip_witness :
    bytes.deobfuscate (bytes.obfuscate [1, 2] [250, 7]) [250, 7] = [1, 2] ∧
    (ObfString.obfuscate 7 [104, 105]).deobfuscate = [104, 105] :=
  ⟨round_trip.1 [1, 2] [250, 7] rfl, round_trip.2.2 7 [104, 105]⟩

/-- C2: for every string and keystream of equal length, `equals` on the
obfuscated data returns true exactly when the candidate equals the string
byte-for-byte (all lengths, including zero), and returns false whenever the
candidate's length differs. -/
theorem equals_agreement : ∀ s ks cand : List Nat, s.length = ks.length →
    (bytes.equals (bytes.obfuscate s ks) ks cand = true ↔ cand = s) ∧
    (cand.length ≠ s.length → bytes.equals (bytes.obfuscate s ks) ks cand = false) := by
  intro s ks cand h
  refine ⟨equals_obfuscate_iff s ks cand h, fun hne => ?_⟩
  cases heq : bytes.equals (bytes.obfuscate s ks) ks cand with
  | false => rfl
  | true =>
    have := (equals_obfuscate_iff s ks cand h).1 heq
    exact absurd (congrArg List.length this) hne

/-- Witness for C2: a matching candidate is accepted, a mismatched one and a
shorter one are rejected, and the zero-length case agrees. -/
theorem equals_agreement_witness :
    bytes.equals (bytes.obfuscate [4, 9] [77, 3]) [77, 3] [4, 9] = true ∧
    bytes.equals (bytes.obfuscate [4, 9] [77, 3]) [77, 3] [4, 8] = false ∧
    bytes.equals (bytes.obfuscate [4, 9] [77, 3]) [77, 3] [4] = false ∧
    bytes.equals (bytes.obfuscate [] []) [] [] = true := by
  refine ⟨(equals_agreement [4, 9] [77, 3] [4, 9] rfl).1.mpr rfl, ?_, ?_, ?_⟩
  · cases heq : bytes.equals (bytes.obfuscate [4, 9] [77, 3]) [77, 3] [4, 8] with
    | false => rfl
    | true => exact absurd ((equals_agreement [4, 9] [77, 3] [4, 8] rfl).1.1 heq) (by decide)
  · exact (equals_agreement [4, 9] [77, 3] [4] rfl).2 (by decide)
  · exact (equals_agreement [] [] [] rfl).1.mpr rfl

/-- C5: keystream monotonic expansion — for every key and all `m ≤ n`, the
first `m` sub-keys of the length-`n` keystream equal the length-`m` keystream,
for both the byte and word variants, and length zero yields the empty
sequence. -/
theorem keystream_monotonic : ∀ key m n : Nat, m ≤ n →
    ((bytes.keystream key n).take m = bytes.keystream key m ∧
     (words.keystream key n).take m = words.keystream key m) ∧
    (bytes.keystream key 0 = [] ∧ words.keystream key 0 = []) := by
  intro key m n h
  exact ⟨⟨keystreamAux_take 8 m n (key % 2^32) h, keystreamAux_take 16 m n (key % 2^32) h⟩,
    rfl, rfl⟩

/-- Witness for C5: the length-2 byte and word keystreams for key 5 are the
first two sub-keys of the length-4 ones. -/
theorem keystream_monotonic_witness :
    (bytes.keystream 5 4).take 2 = bytes.keystream 5 2 ∧
    (words.keystream 5 4).take 2 = words.keystream 5 2 :=
  (keystream_monotonic 5 2 4 (by decide)).1

/-! Helpers for the wide-string conversion claims. -/

theorem or_mul_pow {b i : Nat} (a : Nat) (hb : b < 2^i) : (a * 2^i) ||| b = a * 2^i + b := by
  rw [Nat.mul_comm a, ← Nat.mul_add_lt_is_or hb a]

theorem emit_eq_utf16Units {c : Nat} (hc : c < 0x110000) : emit c = utf16Units c := by
  unfold emit utf16Units
  by_cases hge : c ≥ 0x10000
  · rw [if_pos hge, if_neg (by omega), Nat.mod_eq_of_lt (by omega), Nat.mod_eq_of_lt (by omega)]
  · rw [if_neg hge, if_pos (by omega), Nat.mod_eq_of_lt (by omega)]

theorem utf16Units_length (c : Nat) :
    (utf16Units c).length = if c ≥ 0x10000 then 2 else 1 := by
  unfold utf16Units
  by_cases hge : c ≥ 0x10000
  · rw [if_neg (by omega), if_pos hge]; rfl
  · rw [if_pos (by omega), if_neg hge]; rfl


theorem encodeChar_step : ∀ c : Nat, c < 0x110000 → ∀ rest : List Nat,
    wide (utf8EncodeChar c ++ rest) = (wide rest).map (fun us => utf16Units c ++ us) ∧
    wide_len (utf8EncodeChar c ++ rest) =
      (wide_len rest).map (fun n => (utf16Units c).length + n) := by
  intro c hc rest
  have hemit : emit c = utf16Units c := emit_eq_utf16Units hc
  have hulen : (utf16Units c).length = if c ≥ 0x10000 then 2 else 1 := utf16Units_length c
  by_cases h1 : c < 0x80
  · have hb : c &&& 0x80 = 0 := (by decide : ∀ x < 0x80, x &&& 0x80 = 0) c h1
    have hstep : decodeStep c rest = some (c, 0) := by
      unfold decodeStep
      rw [if_pos hb]
    unfold utf8EncodeChar
    rw [if_pos h1]
    simp only [List.cons_append, List.nil_append]
    refine ⟨?_, ?_⟩
    · rw [wide, hstep]
      simp [hemit]
    · rw [wide_len, hstep]
      simp [hulen]
  · by_cases h2 : c < 0x800
    · have hq : c / 64 < 32 := by omega
      have hr : c % 64 < 64 := by omega
      have g1 : ¬((0xC0 + c / 64) &&& 0x80 = 0) := by
        have := (by decide : ∀ x < 32, (0xC0 + x) &&& 0x80 = 0x80) _ hq
        omega
      have g2 : (0xC0 + c / 64) &&& 0xe0 = 0xc0 :=
        (by decide : ∀ x < 32, (0xC0 + x) &&& 0xe0 = 0xc0) _ hq
      have m1 : (0xC0 + c / 64) &&& 0x1f = c / 64 :=
        (by decide : ∀ x < 32, (0xC0 + x) &&& 0x1f = x) _ hq
      have m2 : (0x80 + c % 64) &&& 0x3f = c % 64 :=
        (by decide : ∀ x < 64, (0x80 + x) &&& 0x3f = x) _ hr
      have hchr : (((0xC0 + c / 64) &&& 0x1f) <<< 6) ||| ((0x80 + c % 64) &&& 0x3f) = c := by
        rw [m1, m2, Nat.shiftLeft_eq, or_mul_pow _ (show c % 64 < 2^6 by omega)]
        omega
      have hstep : decodeStep (0xC0 + c / 64) ((0x80 + c % 64) :: rest) = some (c, 1) := by
        unfold decodeStep
        rw [if_neg g1, if_pos g2]
        simp only [hchr]
      unfold utf8EncodeChar
      rw [if_neg h1, if_pos h2]
      simp only [List.cons_append, List.nil_append]
      refine ⟨?_, ?_⟩
      · rw [wide, hstep]
        simp [hemit]
      · rw [wide_len, hstep]
        simp [hulen]
    · by_cases h3 : c < 0x10000
      · have hq2 : c / 4096 < 16 := by omega
        have hq1 : c / 64 % 64 < 64 := by omega
        have hr : c % 64 < 64 := by omega
        have g1 : ¬((0xE0 + c / 4096) &&& 0x80 = 0) := by
          have := (by decide : ∀ x < 16, (0xE0 + x) &&& 0x80 = 0x80) _ hq2
          omega
        have g2 : ¬((0xE0 + c / 4096) &&& 0xe0 = 0xc0) := by
          have := (by decide : ∀ x < 16, (0xE0 + x) &&& 0xe0 = 0xe0) _ hq2
          omega
        have g3 : (0xE0 + c / 4096) &&& 0xf0 = 0xe0 :=
          (by decide : ∀ x < 16, (0xE0 + x) &&& 0xf0 = 0xe0) _ hq2
        have m1 : (0xE0 + c / 4096) &&& 0x0f = c / 4096 :=
          (by decide : ∀ x < 16, (0xE0 + x) &&& 0x0f = x) _ hq2
        have m2 : (0x80 + c / 64 % 64) &&& 0x3f = c / 64 % 64 :=
          (by decide : ∀ x < 64, (0x80 + x) &&& 0x3f = x) _ hq1
        have m3 : (0x80 + c % 64) &&& 0x3f = c % 64 :=
          (by decide : ∀ x < 64, (0x80 + x) &&& 0x3f = x) _ hr
        have hchr : ((((0xE0 + c / 4096) &&& 0x0f) <<< 12) |||
            (((0x80 + c / 64 % 64) &&& 0x3f) <<< 6)) ||| ((0x80 + c % 64) &&& 0x3f) = c := by
          rw [m1, m2, m3, Nat.shiftLeft_eq, Nat.shiftLeft_eq,
            or_mul_pow _ (show (c / 64 % 64) * 2^6 < 2^12 by omega),
            show c / 4096 * 2^12 + (c / 64 % 64) * 2^6 = (c / 4096 * 64 + c / 64 % 64) * 2^6 by
              ring,
            or_mul_pow _ (show c % 64 < 2^6 by omega)]
          omega
        have hstep : decodeStep (0xE0 + c / 4096)
            ((0x80 + c / 64 % 64) :: (0x80 + c % 64) :: rest) = some (c, 2) := by
          unfold decodeStep
          rw [if_neg g1, if_neg g2, if_pos g3]
          simp only [hchr]
        unfold utf8EncodeChar
        rw [if_neg h1, if_neg h2, if_pos h3]
        simp only [List.cons_append, List.nil_append]
        refine ⟨?_, ?_⟩
        · rw [wide, hstep]
          simp [hemit]
        · rw [wide_len, hstep]
          simp [hulen]
      · have hq3 : c / 262144 < 8 := by omega
        have hq2 : c / 4096 % 64 < 64 := by omega
        have hq1 : c / 64 % 64 < 64 := by omega
        have hr : c % 64 < 64 := by omega
        have g1 : ¬((0xF0 + c / 262144) &&& 0x80 = 0) := by
          have := (by decide : ∀ x < 8, (0xF0 + x) &&& 0x80 = 0x80) _ hq3
          omega
        have g2 : ¬((0xF0 + c / 262144) &&& 0xe0 = 0xc0) := by
          have := (by decide : ∀ x < 8, (0xF0 + x) &&& 0xe0 = 0xe0) _ hq3
          omega
        have g3 : ¬((0xF0 + c / 262144) &&& 0xf0 = 0xe0) := by
          have := (by decide : ∀ x < 8, (0xF0 + x) &&& 0xf0 = 0xf0) _ hq3
          omega
        have g4 : (0xF0 + c / 262144) &&& 0xf8 = 0xf0 :=
          (by decide : ∀ x < 8, (0xF0 + x) &&& 0xf8 = 0xf0) _ hq3
        have m1 : (0xF0 + c / 262144) &&& 0x07 = c / 262144 :=
          (by decide : ∀ x < 8, (0xF0 + x) &&& 0x07 = x) _ hq3
        have m2 : (0x80 + c / 4096 % 64) &&& 0x3f = c / 4096 % 64 :=
          (by decide : ∀ x < 64, (0x80 + x) &&& 0x3f = x) _ hq2
        have m3 : (0x80 + c / 64 % 64) &&& 0x3f = c / 64 % 64 :=
          (by decide : ∀ x < 64, (0x80 + x) &&& 0x3f = x) _ hq1
        have m4 : (0x80 + c % 64) &&& 0x3f = c % 64 :=
          (by decide : ∀ x < 64, (0x80 + x) &&& 0x3f = x) _ hr
        have hchr : (((((0xF0 + c / 262144) &&& 0x07) <<< 18) |||
            (((0x80 + c / 4096 % 64) &&& 0x3f) <<< 12)) |||
            (((0x80 + c / 64 % 64) &&& 0x3f) <<< 6)) ||| ((0x80 + c % 64) &&& 0x3f) = c := by
          rw [m1, m2, m3, m4, Nat.shiftLeft_eq, Nat.shiftLeft_eq, Nat.shiftLeft_eq,
            or_mul_pow _ (show (c / 4096 % 64) * 2^12 < 2^18 by omega),
            show c / 262144 * 2^18 + (c / 4096 % 64) * 2^12 =
              (c / 262144 * 64 + c / 4096 % 64) * 2^12 by ring,
            or_mul_pow _ (show (c / 64 % 64) * 2^6 < 2^12 by omega),
            show (c / 262144 * 64 + c / 4096 % 64) * 2^12 + (c / 64 % 64) * 2^6 =
              ((c / 262144 * 64 + c / 4096 % 64) * 64 + c / 64 % 64) * 2^6 by ring,
            or_mul_pow _ (show c % 64 < 2^6 by omega)]
          omega
        have hstep : decodeStep (0xF0 + c / 262144)
            ((0x80 + c / 4096 % 64) :: (0x80 + c / 64 % 64) :: (0x80 + c % 64) :: rest) =
            some (c, 3) := by
          unfold decodeStep
          rw [if_neg g1, if_neg g2, if_neg g3, if_pos g4]
          simp only [hchr]
        unfold utf8EncodeChar
        rw [if_neg h1, if_neg h2, if_neg h3]
        simp only [List.cons_append, List.nil_append]
        refine ⟨?_, ?_⟩
        · rw [wide, hstep]
          simp [hemit]
        · rw [wide_len, hstep]
          simp [hulen]

theorem wide_utf8Encode : ∀ cs : List Nat, (∀ c ∈ cs, c < 0x110000) →
    wide (utf8Encode cs) = some (utf16Str cs) ∧
    wide_len (utf8Encode cs) = some (utf16Str cs).length := by
  intro cs
  induction cs with
  | nil => intro _; exact ⟨by simp [utf8Encode, utf16Str, wide], by simp [utf8Encode, utf16Str, wide_len]⟩
  | cons c cs' ih =>
    intro h
    have hc : c < 0x110000 := h c (by simp)
    obtain ⟨ih1, ih2⟩ := ih (fun x hx => h x (by simp [hx]))
    have hstep := encodeChar_step c hc (utf8Encode cs')
    have henc : utf8Encode (c :: cs') = utf8EncodeChar c ++ utf8Encode cs' := rfl
    have hstr : utf16Str (c :: cs') = utf16Units c ++ utf16Str cs' := rfl
    rw [henc, hstr, hstep.1, hstep.2, ih1, ih2]
    exact ⟨rfl, by simp⟩

theorem utf16_le_utf8_length : ∀ cs : List Nat, (utf16Str cs).length ≤ (utf8Encode cs).length := by
  intro cs
  induction cs with
  | nil => simp [utf16Str, utf8Encode]
  | cons c cs' ih =>
    have h1 : utf16Str (c :: cs') = utf16Units c ++ utf16Str cs' := rfl
    have h2 : utf8Encode (c :: cs') = utf8EncodeChar c ++ utf8Encode cs' := rfl
    rw [h1, h2]
    simp only [List.length_append]
    have hle : (utf16Units c).length ≤ (utf8EncodeChar c).length := by
      unfold utf16Units utf8EncodeChar
      split_ifs <;> simp <;> omega
    omega

/-! C6, C7. -/

/-- C6: on every valid UTF-8 input, `wide` emits per decoded scalar one code
unit below 0x10000 and otherwise the surrogate pair
`0xD800 + (scalar - 0x10000) / 0x400`, `0xDC00 + (scalar - 0x10000) % 0x400`,
which is a valid surrogate pair reconstructing the original scalar;
`wide_len` returns exactly the number of emitted units; and `wide` of
"Wide\0" yields ['W','i','d','e',0]. -/
theorem wide_conversion :
    (∀ cs : List Nat, (∀ c ∈ cs, ValidScalar c) →
      wide (utf8Encode cs) = some (utf16Str cs) ∧
      wide_len (utf8Encode cs) = some (utf16Str cs).length) ∧
    (∀ c : Nat, 0x10000 ≤ c → c < 0x110000 →
      utf16Units c = [0xD800 + (c - 0x10000) / 0x400, 0xDC00 + (c - 0x10000) % 0x400] ∧
      0xD800 ≤ 0xD800 + (c - 0x10000) / 0x400 ∧ 0xD800 + (c - 0x10000) / 0x400 < 0xDC00 ∧
      0xDC00 ≤ 0xDC00 + (c - 0x10000) % 0x400 ∧ 0xDC00 + (c - 0x10000) % 0x400 < 0xE000 ∧
      0x10000 + ((0xD800 + (c - 0x10000) / 0x400) - 0xD800) * 0x400 +
        ((0xDC00 + (c - 0x10000) % 0x400) - 0xDC00) = c) ∧
    wide wideStrBytes = some [87, 105, 100, 101, 0] := by
  refine ⟨fun cs h => wide_utf8Encode cs (fun c hc => (h c hc).1), fun c hge hlt => ?_,
    by simp +decide [wideStrBytes, wide, decodeStep, emit]⟩
  refine ⟨?_, by omega, by omega, by omega, by omega, by omega⟩
  unfold utf16Units
  rw [if_neg (by omega)]

/-- Witness for C6: the scalars of "W🌍" (the second above 0xFFFF) convert to
the expected code units, with the expected unit count. -/
theorem wide_conversion_witness :
    wide (utf8Encode [87, 0x1F30D]) = some [87, 0xD83C, 0xDF0D] ∧
    wide_len (utf8Encode [87, 0x1F30D]) = some 3 := by
  obtain ⟨h1, h2⟩ := wide_conversion.1 [87, 0x1F30D] (by decide)
  exact ⟨by rw [h1]; rfl, by rw [h2]; rfl⟩

/-- C7: `wide` and `wide_len` terminate with a result (never hit the modelled
panic or `loop { }` paths) on every valid UTF-8 input, and the emitted unit
count is bounded by the input byte length (each scalar's units never exceed
its UTF-8 bytes), supporting the O(N) bound. -/
theorem wide_total :
    ∀ cs : List Nat, (∀ c ∈ cs, ValidScalar c) →
      (wide (utf8Encode cs)).isSome = true ∧
      (wide_len (utf8Encode cs)).isSome = true ∧
      (∀ us, wide (utf8Encode cs) = some us → us.length ≤ (utf8Encode cs).length) := by
  intro cs h
  obtain ⟨h1, h2⟩ := wide_utf8Encode cs (fun c hc => (h c hc).1)
  refine ⟨by rw [h1]; rfl, by rw [h2]; rfl, ?_⟩
  intro us hus
  rw [h1] at hus
  cases hus
  exact utf16_le_utf8_length cs

/-- Witness for C7: concrete totality on the encoding of "A🌍". -/
theorem wide_total_witness :
    (wide (utf8Encode [65, 0x1F30D])).isSome = true ∧
    (wide_len (utf8Encode [65, 0x1F30D])).isSome = true :=
  ⟨(wide_total [65, 0x1F30D] (by decide)).1, (wide_total [65, 0x1F30D] (by decide)).2.1⟩


/-! Helpers for the debug-rendering claim. -/

theorem decodeUtf16_bmp (u : Nat) (rest : List Nat) (h : u < 0xD800 ∨ 0xE000 ≤ u) :
    decodeUtf16 (u :: rest) = some u :: decodeUtf16 rest := by
  have hstep : decodeUtf16Step u rest = (some u, 0) := by
    cases rest with
    | nil => rw [decodeUtf16Step, if_pos h]
    | cons u2 rest2 => rw [decodeUtf16Step, if_pos h]
  rw [decodeUtf16, hstep]
  simp

theorem decodeUtf16_pair (u u2 : Nat) (rest2 : List Nat) (h1 : ¬(u < 0xD800 ∨ 0xE000 ≤ u))
    (h2 : u < 0xDC00) (h3 : 0xDC00 ≤ u2 ∧ u2 < 0xE000) :
    decodeUtf16 (u :: u2 :: rest2) =
      some (0x10000 + (u - 0xD800) * 0x400 + (u2 - 0xDC00)) :: decodeUtf16 rest2 := by
  have hstep : decodeUtf16Step u (u2 :: rest2) =
      (some (0x10000 + (u - 0xD800) * 0x400 + (u2 - 0xDC00)), 1) := by
    rw [decodeUtf16Step, if_neg h1, if_pos h2, if_pos h3]
  rw [decodeUtf16, hstep]
  simp

theorem decodeUtf16_unpaired_high (u u2 : Nat) (rest2 : List Nat)
    (h1 : ¬(u < 0xD800 ∨ 0xE000 ≤ u)) (h2 : u < 0xDC00) (h3 : ¬(0xDC00 ≤ u2 ∧ u2 < 0xE000)) :
    decodeUtf16 (u :: u2 :: rest2) = none :: decodeUtf16 (u2 :: rest2) := by
  have hstep : decodeUtf16Step u (u2 :: rest2) = (none, 0) := by
    rw [decodeUtf16Step, if_neg h1, if_pos h2, if_neg h3]
  rw [decodeUtf16, hstep]
  simp

theorem decodeUtf16_high_end (u : Nat) (h1 : ¬(u < 0xD800 ∨ 0xE000 ≤ u)) (h2 : u < 0xDC00) :
    decodeUtf16 [u] = [none] := by
  have hstep : decodeUtf16Step u [] = (none, 0) := by
    rw [decodeUtf16Step, if_neg h1]
  rw [decodeUtf16, hstep]
  simp [decodeUtf16]

theorem decodeUtf16_low (u : Nat) (rest : List Nat) (h1 : ¬(u < 0xD800 ∨ 0xE000 ≤ u))
    (h2 : ¬ u < 0xDC00) :
    decodeUtf16 (u :: rest) = none :: decodeUtf16 rest := by
  have hstep : decodeUtf16Step u rest = (none, 0) := by
    cases rest with
    | nil => rw [decodeUtf16Step, if_neg h1]
    | cons u2 rest2 => rw [decodeUtf16Step, if_neg h1, if_neg h2]
  rw [decodeUtf16, hstep]
  simp

theorem decodeUtf16_sound : ∀ units : List Nat, (∀ u ∈ units, u < 2^16) →
    ∀ o ∈ decodeUtf16 units, ∀ x, o = some x → ValidScalar x := by
  intro units
  induction units using decodeUtf16.induct with
  | case1 =>
    intro _ o ho
    rw [decodeUtf16] at ho
    simp at ho
  | case2 u rest ih =>
    intro hin o ho x hox
    rw [decodeUtf16] at ho
    rcases List.mem_cons.1 ho with heq | ho2
    · subst heq
      cases rest with
      | nil =>
        rw [decodeUtf16Step] at hox
        split_ifs at hox with hg1
        · have hu : u < 2^16 := hin u (by simp)
          have hx : u = x := by simpa using hox
          unfold ValidScalar
          omega
      | cons u2 rest2 =>
        rw [decodeUtf16Step] at hox
        split_ifs at hox with hg1 hg2 hg3
        · have hu : u < 2^16 := hin u (by simp)
          have hx : u = x := by simpa using hox
          unfold ValidScalar
          omega
        · have hx : 0x10000 + (u - 0xD800) * 0x400 + (u2 - 0xDC00) = x := by simpa using hox
          unfold ValidScalar
          omega
    · exact ih (fun v hv => hin v (List.mem_cons_of_mem _ (List.drop_subset _ _ hv))) o ho2 x hox

/-! C9. -/

/-- C9: the debug rendering of a word-width deobfuscated buffer never fails —
every rendered scalar is a valid Unicode scalar for every buffer of 16-bit
units, and every unpaired or invalid surrogate is substituted by the
replacement character 0xFFFD while rendering continues. -/
theorem debug_render_never_fails :
    (∀ units : List Nat, (∀ u ∈ units, u < 2^16) → ∀ c ∈ debugRender units, ValidScalar c) ∧
    (∀ u u2 : Nat, ∀ rest2 : List Nat, 0xD800 ≤ u → u < 0xDC00 →
      ¬(0xDC00 ≤ u2 ∧ u2 < 0xE000) →
      debugRender (u :: u2 :: rest2) = 0xFFFD :: debugRender (u2 :: rest2)) ∧
    (∀ u : Nat, ∀ rest : List Nat, 0xDC00 ≤ u → u < 0xE000 →
      debugRender (u :: rest) = 0xFFFD :: debugRender rest) ∧
    (∀ u : Nat, 0xD800 ≤ u → u < 0xDC00 → debugRender [u] = [0xFFFD]) := by
  refine ⟨?_, ?_, ?_, ?_⟩
  · intro units hin c hc
    obtain ⟨o, ho, rfl⟩ := List.mem_map.1 hc
    cases o with
    | none => decide
    | some x => exact decodeUtf16_sound units hin (some x) ho x rfl
  · intro u u2 rest2 hge hlt h3
    unfold debugRender
    rw [decodeUtf16_unpaired_high u u2 rest2 (by omega) (by omega) h3]
    rfl
  · intro u rest hge hlt
    unfold debugRender
    rw [decodeUtf16_low u rest (by omega) (by omega)]
    rfl
  · intro u hge hlt
    unfold debugRender
    rw [decodeUtf16_high_end u (by omega) (by omega)]
    rfl

/-- Witness for C9: a lone high surrogate and a leading low surrogate render
as the replacement character, and a rendered scalar from a valid pair is a
valid scalar. -/
theorem debug_render_never_fails_witness :
    debugRender [0xD800] = [0xFFFD] ∧
    debugRender [0xDC00, 66] = [0xFFFD, 66] ∧
    ValidScalar 0x1F30D := by
  refine ⟨debug_render_never_fails.2.2.2 0xD800 (by decide) (by decide), ?_, ?_⟩
  · rw [debug_render_never_fails.2.2.1 0xDC00 [66] (by decide) (by decide)]
    have h66 : debugRender [66] = [66] := by
      unfold debugRender
      rw [decodeUtf16_bmp 66 [] (by omega), decodeUtf16]
      rfl
    rw [h66]
  · have hr : debugRender [0xD83C, 0xDF0D] = [0x1F30D] := by
      unfold debugRender
      rw [decodeUtf16_pair 0xD83C 0xDF0D [] (by decide) (by decide) (by decide), decodeUtf16]
      simp
    exact debug_render_never_fails.1 [0xD83C, 0xDF0D] (by decide) 0x1F30D (by rw [hr]; simp)

end Obfstr
